import Mathlib

/-!
# Verification of the BulkRun core of netl-ap-map-flow

Shallow embedding of `src/ApertureMapModelTools/BulkRun/__bulk_run_core__.py`:
the `ArgInput` configuration-line model, the `InputFile` configuration
document, the memory estimator `estimate_req_RAM`, the Cartesian expander
`combine_run_args`, and the admission-control scheduler
(`start_simulations` / `check_processes` / `start_run`), together with the
driver `bulk_run`.

Python floats are modelled exactly: the scheduler's arithmetic is stated
over an arbitrary `LinearOrderedField` (instantiated at `ℚ` for concrete
evaluation), and the memory estimator, whose formula uses a real-valued
power `x ** 0.72578813`, is modelled over `ℝ` with `Real.rpow`. Python
`dict`s (which preserve insertion order and overwrite in place) are
modelled as association lists with explicit insert-or-replace operations.
Console printing and directory creation are effect-free in the model; disk
writes and process launches are recorded as explicit trace events.
-/

namespace BulkRun

/-! ## Character and string primitives

Python `re`'s `\s` on the ASCII range: space, tab, newline, carriage
return, vertical tab, form feed. -/

/-- The whitespace class of Python's regex `\s` (ASCII range). -/
def isWs (c : Char) : Bool :=
  c = ' ' || c = '\t' || c = '\n' || c = '\r' || c = (Char.ofNat 11) || c = (Char.ofNat 12)

/-- Split a character list at every single whitespace character, keeping
empty pieces — the behaviour of Python's `re.split(r'\s', s)`. -/
def splitEveryAux (cs : List Char) : List (List Char) :=
  cs.foldr
    (fun c acc =>
      if isWs c then [] :: acc
      else
        match acc with
        | [] => [[c]]
        | a :: r => (c :: a) :: r)
    [[]]

/-- `re.split(r'\s', s)` : split on each whitespace character, keeping the
empty strings between adjacent separators. -/
def splitEvery (s : String) : List String :=
  (splitEveryAux s.toList).map (fun cs => String.mk cs)

/-- `re.split(r'\s', s)` followed by dropping the falsy (empty) pieces, as in
`[l for l in line_arr if l]`. -/
def splitWsF (s : String) : List String :=
  (splitEvery s).filter (fun p => ¬ p.isEmpty)

/-- Does the string contain a `:` immediately followed by a whitespace
character?  (`re.search(r':\s', line)`). -/
def hasColonWs : List Char → Bool
  | [] => false
  | [_] => false
  | c1 :: c2 :: r => (c1 = ':' && isWs c2) || hasColonWs (c2 :: r)

/-- Does the token end with `:`? (`re.search(r':$', field)`). -/
def endsColon (s : String) : Bool :=
  s.toList.getLast? = some ':'

/-- The character class of the keyword regex `[a-zA-z, -]`: note the second
range is `A`–`z`, which also admits `[ \ ] ^ _` and the backtick. -/
def kwAllowed (c : Char) : Bool :=
  ('a' ≤ c && c ≤ 'z') || ('A' ≤ c && c ≤ 'z') || c = ',' || c = ' ' || c = '-'

/-! ## Association-list model of Python dicts -/

/-- `d[k]` lookup. -/
def dictLookup {β : Type} (d : List (String × β)) (k : String) : Option β :=
  (d.find? (fun p => p.1 = k)).map Prod.snd

/-- `d[k] = v`: replace the value at the first occurrence of `k`, keeping
its position; append at the end when `k` is new — Python dict assignment. -/
def dictInsert {β : Type} : List (String × β) → String → β → List (String × β)
  | [], k, v => [(k, v)]
  | p :: rest, k, v =>
    if p.1 = k then (k, v) :: rest else p :: dictInsert rest k v

/-! ## ArgInput: one line of an INP file -/

/-- `ArgInput`: the parsed form of one input line. `value_index` is the
Python attribute of the same name: `-1` when the whole line is the value,
and otherwise the index (possibly one past the end, see `ArgInput.parse`) of
the token after the last token ending in `:`. -/
structure ArgInput where
  line : String
  line_arr : List String
  keyword : String
  value : String
  value_index : Int
  commented_out : Bool
deriving DecidableEq, Repr

/-- The slot-seeking loop of `ArgInput.__init__`: for each enumerated token
ending in `:`, record the following token (or `'NONE'` past the end) and its
index; the last such token wins because the loop does not break. -/
def findSlot (arr : List String) : Option (String × Int) :=
  arr.enum.foldl
    (fun acc p =>
      if endsColon p.2 then some (arr.getD (p.1 + 1) "NONE", (p.1 : Int) + 1)
      else acc)
    none

/-- `ArgInput.__init__(line)`. A leading `;` marks the line commented-out
and is stripped from the working text; the text is tokenized on whitespace;
the keyword is the leading `[; ]*`-then-`[a-zA-z, -]*` run of the first
token; when the line contains `:` followed by whitespace, the token after
the last token ending in `:` is the value slot. -/
def ArgInput.parse (line0 : String) : ArgInput :=
  let commented : Bool := line0.toList.head? == some ';'
  let line := if commented then String.mk line0.toList.tail else line0
  let arr0 := splitWsF line
  let arr := if arr0.isEmpty then [""] else arr0
  let kw := String.mk
    (((arr.headD "").toList.dropWhile (fun c => c = ';' || c = ' ')).takeWhile
      (fun c => kwAllowed c))
  let slot : String × Int :=
    if hasColonWs line.toList then
      match findSlot arr with
      | some p => p
      | none => (line, -1)
    else (line, -1)
  { line := line, line_arr := arr, keyword := kw, value := slot.1,
    value_index := slot.2, commented_out := commented }

/-- `ArgInput.update_value(new_value, uncomment)`. When the recorded slot
index is positive the slot token is overwritten — Python raises
`IndexError` (modelled as `none`) when that index is out of range of
`line_arr`; otherwise the whole token list is re-tokenized from the new
value (keeping empty tokens: the source filters only `None`, not `''`).
The tokens are re-joined with single spaces. -/
def ArgInput.update_value (a : ArgInput) (new_value : String)
    (uncomment : Bool := true) : Option ArgInput :=
  let commented := if uncomment then false else a.commented_out
  if 0 < a.value_index then
    if a.value_index.toNat < a.line_arr.length then
      let arr := a.line_arr.set a.value_index.toNat new_value
      some { a with
        commented_out := commented, line_arr := arr,
        line := String.intercalate " " arr, value := new_value }
    else
      none
  else
    let arr := splitEvery new_value
    some { a with
      commented_out := commented, line_arr := arr,
      line := String.intercalate " " arr, value := new_value }

/-- `ArgInput.output_line()`: the stored text, re-prefixed with `;` when the
line is commented out. -/
def ArgInput.output_line (a : ArgInput) : String :=
  (if a.commented_out then ";" else "") ++ a.line

/-- Parsing never loses text: the output line of a freshly parsed `ArgInput`
is the original line (the stripped `;` is re-added on output). -/
theorem ArgInput.output_line_parse (l : String) :
    (ArgInput.parse l).output_line = l := by
  obtain ⟨cs⟩ := l
  rw [ArgInput.parse, ArgInput.output_line]
  cases cs with
  | nil => simp
  | cons c cs' =>
    by_cases h : c = ';'
    · subst h
      simp only [String.toList, List.head?, beq_self_eq_true, if_pos, List.tail]
      rfl
    · simp [String.toList, h]

/-! ## Case-insensitive literal replacement

`re.compile('%'+arg+'%', flags=re.I).sub(value, s)`: the pattern is the
literal text `%arg%`, matched case-insensitively, every non-overlapping
occurrence replaced left to right. -/

/-- Case-insensitive prefix test on character lists. -/
def isPrefixCI : List Char → List Char → Bool
  | [], _ => true
  | _ :: _, [] => false
  | p :: ps, c :: cs => (p.toLower == c.toLower) && isPrefixCI ps cs

/-- Replace every (leftmost, non-overlapping) case-insensitive occurrence of
the pattern `p0 :: ps` in the last argument by `repl`. The fuel argument
makes the recursion structural (each step consumes at least one character,
so fuel equal to the text's length is enough and never runs out). -/
def ciReplaceAux (p0 : Char) (ps repl : List Char) : ℕ → List Char → List Char
  | 0, cs => cs
  | _ + 1, [] => []
  | fuel + 1, c :: cs =>
    if isPrefixCI (p0 :: ps) (c :: cs) then
      repl ++ ciReplaceAux p0 ps repl fuel (cs.drop ps.length)
    else
      c :: ciReplaceAux p0 ps repl fuel cs

/-- String-level case-insensitive literal replacement. The empty pattern
never arises from the source (the pattern is always `%…%`) and is treated
as matching nothing. -/
def ciReplace (pat repl s : String) : String :=
  match pat.toList with
  | [] => s
  | p0 :: ps => String.mk (ciReplaceAux p0 ps repl.toList s.toList.length s.toList)

/-! ## InputFile: a whole document -/

/-- `InputFile`: the document model. `α` is the numeric type of the
memory-cost field `RAM_req` (a Python float; `ℚ` or `ℝ` in this
development). Dicts are association lists in insertion order. -/
structure InputFile (α : Type) where
  arg_dict : List (String × ArgInput)
  filename_format_args : List (String × String)
  arg_order : List String
  RAM_req : α
  outfile_name : String
  filename_formats : List (String × String)
deriving DecidableEq, Repr

/-- The default output file name of `InputFile.__init__`. -/
def defaultOutfile : String := "FRACTURE_INITIALIZATION.INP"

/-- `InputFile.__init__(infile=None, filename_formats)`: fresh empty
document; the filename-format mapping is copied and given an `input_file`
entry mapping to the default output name when it lacks one. -/
def InputFile.init {α : Type} [Zero α]
    (filename_formats : Option (List (String × String))) : InputFile α :=
  let ff := filename_formats.getD []
  { arg_dict := []
    filename_format_args := []
    arg_order := []
    RAM_req := 0
    outfile_name := defaultOutfile
    filename_formats :=
      if dictLookup ff "input_file" = none then ff ++ [("input_file", defaultOutfile)]
      else ff }

/-- `content.split('\x5cn')` as Python performs it: split the character
list at every newline, keeping empty pieces. -/
def splitOnNl (s : String) : List String :=
  (s.toList.foldr
    (fun c acc =>
      if c = '\n' then [] :: acc
      else
        match acc with
        | [] => [[c]]
        | a :: r => (c :: a) :: r)
    [[]]).map (fun cs => String.mk cs)

/-- The per-line normalisation of `parse_input_file`:
`re.sub(r'^(;+)\s+', r'\1', line)` deletes the whitespace run that follows a
leading run of semicolons. -/
def normalizeLine (s : String) : String :=
  let cs := s.toList
  let semis := cs.takeWhile (fun c => c = ';')
  let rest := cs.dropWhile (fun c => c = ';')
  if ¬ semis.isEmpty ∧ (rest.head?.elim false (fun c => isWs c)) then
    String.mk (semis ++ rest.dropWhile (fun c => isWs c))
  else s

/-- The parsing loop of `parse_input_file`: for each line (normalised), the
keyword is appended to the order list and the dict entry for the keyword is
overwritten with a freshly parsed `ArgInput`. -/
def parseLines (ls : List String) :
    List (String × ArgInput) × List String :=
  ls.foldl
    (fun acc line =>
      let nl := normalizeLine line
      let a := ArgInput.parse nl
      (dictInsert acc.1 a.keyword (ArgInput.parse nl), acc.2 ++ [a.keyword]))
    ([], [])

/-- `InputFile(infile, filename_formats)` on a text: `__init__` followed by
`parse_input_file`, which splits the content on newlines, parses each line,
and fails fatally (`SystemExit`, modelled as `Except.error`) when no
`EXE-FILE` keyword is present. -/
def InputFile.ofText {α : Type} [Zero α] (content : String)
    (filename_formats : Option (List (String × String))) :
    Except Unit (InputFile α) :=
  let base : InputFile α := InputFile.init filename_formats
  let parsed := parseLines (splitOnNl content)
  let f := { base with arg_dict := parsed.1, arg_order := parsed.2 }
  match dictLookup f.arg_dict "EXE-FILE" with
  | some _ => .ok f
  | none => .error ()

/-- `InputFile.clone(file_formats)`: a fresh `InputFile` (so the cost field,
extra placeholders and output name are reset by `__init__`) whose dict
re-parses every line's output text into a new `ArgInput` and whose order
list is copied. -/
def InputFile.clone {α : Type} [Zero α] (f : InputFile α)
    (file_formats : Option (List (String × String))) : InputFile α :=
  let ff := file_formats.getD f.filename_formats
  let g : InputFile α := InputFile.init (some ff)
  { g with
    arg_dict := f.arg_dict.map (fun p => (p.1, ArgInput.parse (p.2.output_line)))
    arg_order := f.arg_order }

/-- `InputFile.update_args(args)`: update the matching line's value when the
keyword exists (`update_value` may raise `IndexError`, modelled by
propagating `none`); an unknown keyword is stored in the extra-placeholder
mapping. -/
def InputFile.update_args {α : Type} (f : InputFile α)
    (args : List (String × String)) : Option (InputFile α) :=
  args.foldlM
    (fun g kv =>
      match dictLookup g.arg_dict kv.1 with
      | some a =>
        (a.update_value kv.2).map
          (fun a' => { g with arg_dict := dictInsert g.arg_dict kv.1 a' })
      | none =>
        some { g with
          filename_format_args := dictInsert g.filename_format_args kv.1 kv.2 })
    f

/-- The source substitutes with `re.compile('%' + arg + '%', flags=re.I)`:
the keyword is interpolated into a *regex*, not matched literally. Over
the keyword alphabet `[a-zA-z, -]` three characters break the literal
reading: `[` opens a character set (`re.compile` raises `re.error` when it
stays unterminated, as for keyword `A[`), `\` starts an escape (raising on
unknown letter escapes, otherwise changing what is matched), and `^` is an
anchor that can never match inside `%…%`. Every other admissible character
(letters under `re.I`, `]` unmatched, `_`, the backtick, comma, space,
hyphen) is matched literally, where the pattern is exactly the literal
text `%keyword%` and `ciReplace` is its exact model. -/
def regexLiteral (k : String) : Bool :=
  k.toList.all (fun c => ¬ (c = '[' || c = '\\' || c = '^'))

/-- `construct_file_names`, its pure part (directory creation elided): every
`%keyword%` placeholder in every declared format string is substituted
case-insensitively with the line's current value, then every extra
placeholder with its stored value; each resolved name is written back into
the line of the same keyword (`update_value`; its `IndexError` and a
missing keyword other than `input_file` are fatal, modelled as
`Except.error`); finally the resolved `input_file` entry becomes the
output file name.

The substitution first compiles each keyword's pattern: a keyword that is
not `regexLiteral` makes the source either raise `re.error` (keyword `A[`)
or apply regex — not literal — matching (`^`, `\`, balanced classes),
behaviours this embedding does not model; both are conservatively mapped
to the error outcome, and every theorem about successful rendering assumes
`regexLiteral` keywords, where the model is exact. -/
def InputFile.construct_file_names {α : Type} (f : InputFile α) :
    Except String (InputFile α) :=
  if ((f.arg_dict.map Prod.fst ++ f.filename_format_args.map Prod.fst).all
      (fun k => regexLiteral k)) then do
    let outfiles0 := f.filename_formats
    let outfiles1 := f.arg_dict.foldl
      (fun ofs p => ofs.map (fun q => (q.1, ciReplace ("%" ++ p.1 ++ "%") p.2.value q.2)))
      outfiles0
    let outfiles := f.filename_format_args.foldl
      (fun ofs p => ofs.map (fun q => (q.1, ciReplace ("%" ++ p.1 ++ "%") p.2 q.2)))
      outfiles1
    let g ← outfiles.foldlM
      (fun (g : InputFile α) q =>
        match dictLookup g.arg_dict q.1 with
        | some a =>
          match a.update_value q.2 with
          | some a' => .ok { g with arg_dict := dictInsert g.arg_dict q.1 a' }
          | none => .error "IndexError"
        | none => if q.1 = "input_file" then .ok g else .error q.1)
      f
    match dictLookup outfiles "input_file" with
    | some v => .ok { g with outfile_name := v }
    | none => .error "input_file"
  else
    .error "re.error"

/-- The content-building part of `InputFile.__repr__` (and of
`write_inp_file`): resolve the file names, then render each line in keyword
order from the dict (a keyword missing from the dict is a `KeyError`). -/
def InputFile.renderLines {α : Type} (f : InputFile α) :
    Except String (List String) := do
  let g ← f.construct_file_names
  g.arg_order.foldlM
    (fun acc k =>
      match dictLookup g.arg_dict k with
      | some a => .ok (acc ++ [a.output_line])
      | none => .error k)
    []

/-! ## Run-set expander: `combine_run_args` -/

/-- One entry of `sim_inputs`: an aperture-map identifier, the ordered
parameter-name → value-list mapping (`run_params`, a Python dict, so its
keys are unique), filename-format overrides, and the estimated memory cost
filled in by `bulk_run`. -/
structure MapArgs (α : Type) where
  aperture_map : String
  run_params : List (String × List String)
  filename_formats : List (String × String)
  RAM_req : α
deriving DecidableEq, Repr

/-- `itertools.product(*values)`: the Cartesian product of the value lists,
lexicographic with the leftmost axis slowest and each axis in list order. -/
def listProd {β : Type} : List (List β) → List (List β)
  | [] => [[]]
  | l :: rest => l.flatMap (fun x => (listProd rest).map (fun c => x :: c))

/-- The body of the inner loop of `combine_run_args`: build the arg dict
from the parameter names zipped with one combination, set `APER-MAP` (dict
assignment), clone the template with the grid's filename formats, restore
the grid's `RAM_req`, and apply the args (`update_args` may fail with
`IndexError`, propagated as `none`). -/
def mkDoc {α : Type} [Zero α] (init_input_file : InputFile α) (m : MapArgs α)
    (comb : List String) : Option (InputFile α) :=
  let args := dictInsert ((m.run_params.map Prod.fst).zip comb)
    "APER-MAP" m.aperture_map
  let inp_file := { m.filename_formats |> some |> init_input_file.clone with
    RAM_req := m.RAM_req }
  inp_file.update_args args

/-- The inner loop of `combine_run_args` over the combinations of one grid. -/
def buildDocs {α : Type} [Zero α] (init_input_file : InputFile α)
    (m : MapArgs α) : List (List String) → Option (List (InputFile α))
  | [] => some []
  | comb :: rest =>
    match mkDoc init_input_file m comb, buildDocs init_input_file m rest with
    | some d, some ds => some (d :: ds)
    | _, _ => none

/-- All documents of one grid: one per element of the Cartesian product of
its parameter value lists, in product order. -/
def perGridDocs {α : Type} [Zero α] (init_input_file : InputFile α)
    (m : MapArgs α) : Option (List (InputFile α)) :=
  buildDocs init_input_file m (listProd (m.run_params.map Prod.snd))

/-- `combine_run_args(input_map_args, init_input_file)`: grids outer,
combinations inner, appended into one flat list. -/
def combine_run_args {α : Type} [Zero α] :
    List (MapArgs α) → InputFile α → Option (List (InputFile α))
  | [], _ => some []
  | m :: rest, init_input_file =>
    match perGridDocs init_input_file m, combine_run_args rest init_input_file with
    | some ds, some tail => some (ds ++ tail)
    | _, _ => none

/-! ## Memory-cost estimator: `estimate_req_RAM`

The `DataField` collaborator is abstracted to the two dimensions it
supplies (`field.nx`, `field.nz`); the estimate is the source's
`0.00505193 * ((nx*nz)**2) ** 0.72578813 * 2**(-20)`, stated over `ℝ`
(`Real.rpow` for the fractional power, which exact rational arithmetic
cannot express). -/

/-- A parsed aperture-map grid: the dimensions `DataField` reports. -/
structure Grid where
  nx : ℕ
  nz : ℕ
deriving DecidableEq, Repr

/-- The RAM estimate of one map, in GB. -/
noncomputable def ram_est (g : Grid) : ℝ :=
  0.00505193 * (((g.nx * g.nz : ℕ) : ℝ) ^ 2) ^ (0.72578813 : ℝ) * (2 : ℝ) ^ (-20 : ℤ)

/-- `estimate_req_RAM(input_maps, avail_RAM)`: the RAM estimate of every
map; when any map's estimate exceeds the budget the whole batch fails
(`SystemExit`), after reporting each offending map with its required and
available GB (the error value collects exactly those reports). -/
noncomputable def estimate_req_RAM (input_maps : List Grid) (avail_RAM : ℝ) :
    Except (List (Grid × ℝ × ℝ)) (List ℝ) :=
  let offenders := (input_maps.filter (fun g => avail_RAM < ram_est g)).map
    (fun g => (g, ram_est g, avail_RAM))
  if offenders.isEmpty then .ok (input_maps.map ram_est) else .error offenders

/-! ## Scheduler: `start_simulations` / `check_processes` / `start_run`

The scheduler state is the triple of parallel lists the source threads
through its loop (`processes`, `RAM_in_use`, `input_file_list`), plus a
trace of the effects it performs (`write_inp_file`'s disk write and the
`Popen` launch are recorded as events; their I/O details are outside the
model). Which process completes first is decided by the environment, so
the reap step is indexed by the position `poll()` singled out. -/

/-- A process slot: the `DummyProcess` placeholder or a launched external
process (recorded by the document it was launched from). -/
inductive Proc (α : Type) where
  | dummy : Proc α
  | popen : InputFile α → Proc α
deriving DecidableEq

/-- The observable effects of an admission: the job's input file is written
to disk, then the executable is launched on it. -/
inductive SchedEvent (α : Type) where
  | write : InputFile α → SchedEvent α
  | launch : InputFile α → SchedEvent α
deriving DecidableEq

/-- The scheduler's mutable state. -/
structure SchedState (α : Type) where
  processes : List (Proc α)
  RAM_in_use : List α
  queue : List (InputFile α)
  events : List (SchedEvent α)
deriving DecidableEq

/-- The initial state of `start_simulations`: one `DummyProcess` and its
`0.0` reservation. -/
def initState {α : Type} [Zero α] (input_file_list : List (InputFile α)) :
    SchedState α :=
  { processes := [.dummy], RAM_in_use := [0], queue := input_file_list,
    events := [] }

/-- One sweep result of `check_processes`: `poll()` found the process at
index `i` finished, so that slot and its reservation are deleted
(`del processes[i]; del RAM_in_use[i]`; an index past the end deletes
nothing, which the source never does). -/
def checkProcessesStep {α : Type} (s : SchedState α) (i : ℕ) : SchedState α :=
  { s with processes := s.processes.eraseIdx i,
           RAM_in_use := s.RAM_in_use.eraseIdx i }

/-- The queue scan of `start_run`: the first document whose `RAM_req` fits
in the free RAM is popped (`input_file_list.pop(i)`); `none` when no queued
document fits. -/
def tryAdmit {α : Type} [LinearOrderedField α] (free_RAM : α) :
    List (InputFile α) → Option (InputFile α × List (InputFile α))
  | [] => none
  | j :: rest =>
    if j.RAM_req ≤ free_RAM then some (j, rest)
    else (tryAdmit free_RAM rest).map (fun p => (p.1, j :: p.2))

/-- One iteration of `start_run`'s admission loop: stop when the process
count has reached `num_CPUs`; otherwise admit the first queued document
fitting in `avail_RAM - sum(RAM_in_use)`: write its file, launch it, append
the process slot and its reservation. `none` means the loop breaks. -/
def admitOnce {α : Type} [LinearOrderedField α] (num_CPUs avail_RAM : α)
    (s : SchedState α) : Option (SchedState α) :=
  if num_CPUs ≤ (s.processes.length : α) then none
  else
    match tryAdmit (avail_RAM - s.RAM_in_use.sum) s.queue with
    | none => none
    | some (inp_file, rest) =>
      some { processes := s.processes ++ [.popen inp_file],
             RAM_in_use := s.RAM_in_use ++ [inp_file.RAM_req],
             queue := rest,
             events := s.events ++ [.write inp_file, .launch inp_file] }

/-- Each admission removes one document from the queue. -/
theorem tryAdmit_queue_lt {α : Type} [LinearOrderedField α] (free_RAM : α)
    (q : List (InputFile α)) (j : InputFile α) (q' : List (InputFile α))
    (h : tryAdmit free_RAM q = some (j, q')) : q'.length < q.length := by
  induction q generalizing j q' with
  | nil => simp [tryAdmit] at h
  | cons a rest ih =>
    rw [tryAdmit] at h
    split at h
    · cases h
      simp
    · match hr : tryAdmit free_RAM rest with
      | none => rw [hr] at h; simp at h
      | some (j0, q0) =>
        rw [hr] at h
        cases h
        simpa using ih j0 q0 hr

/-- Each admission removes one document from the scheduler's queue. -/
theorem admitOnce_queue_lt {α : Type} [LinearOrderedField α]
    (num_CPUs avail_RAM : α) (s t : SchedState α)
    (h : admitOnce num_CPUs avail_RAM s = some t) :
    t.queue.length < s.queue.length := by
  rw [admitOnce] at h
  split at h
  · simp at h
  · match hr : tryAdmit (avail_RAM - s.RAM_in_use.sum) s.queue with
    | none => rw [hr] at h; simp at h
    | some (j, q') =>
      rw [hr] at h
      cases h
      exact tryAdmit_queue_lt _ _ _ _ hr

/-- `start_run(processes, input_file_list, num_CPUs, avail_RAM,
RAM_in_use)`: iterate the admission step until it breaks. -/
def start_run {α : Type} [LinearOrderedField α] (num_CPUs avail_RAM : α)
    (s : SchedState α) : SchedState α :=
  match h : admitOnce num_CPUs avail_RAM s with
  | none => s
  | some t => start_run num_CPUs avail_RAM t
termination_by s.queue.length
decreasing_by exact admitOnce_queue_lt _ _ _ _ h

/-- `start_simulations(input_file_list, num_CPUs, avail_RAM)`: starting
from the dummy-initialised state, alternate one reap (`check_processes`,
blocking until the environment finishes some process — the oracle lists the
index found at each sweep) with one admission pass (`start_run`) while the
queue is non-empty. An exhausted oracle means no process ever finishes
again: the loop blocks forever and the state no longer changes. -/
def simLoop {α : Type} [LinearOrderedField α] (num_CPUs avail_RAM : α) :
    List ℕ → SchedState α → SchedState α
  | oracle, s =>
    if s.queue.isEmpty then s
    else
      match oracle with
      | [] => s
      | i :: rest =>
        simLoop num_CPUs avail_RAM rest
          (start_run num_CPUs avail_RAM (checkProcessesStep s i))

/-- `start_simulations` proper. -/
def start_simulations {α : Type} [LinearOrderedField α]
    (oracle : List ℕ) (input_file_list : List (InputFile α))
    (num_CPUs avail_RAM : α) : SchedState α :=
  simLoop num_CPUs avail_RAM oracle (initState input_file_list)

/-- Reachability along the scheduler's atomic steps: reflexivity, one reap
(`check_processes` deleting the completed slot the environment picked), or
one admission (`start_run`'s loop body). Every state the scheduler passes
through during `start_simulations` / `start_run` is reachable from its
start state. -/
inductive Reach {α : Type} [LinearOrderedField α] (num_CPUs avail_RAM : α) :
    SchedState α → SchedState α → Prop
  | refl (s : SchedState α) : Reach num_CPUs avail_RAM s s
  | reap {s t : SchedState α} (i : ℕ) :
      Reach num_CPUs avail_RAM s t →
      Reach num_CPUs avail_RAM s (checkProcessesStep t i)
  | grant {s t u : SchedState α} :
      Reach num_CPUs avail_RAM s t →
      admitOnce num_CPUs avail_RAM t = some u →
      Reach num_CPUs avail_RAM s u

/-! ## Driver: `bulk_run` -/

/-- `bulk_run(sim_inputs, num_CPUs, sys_RAM, …)`: reserve 90 % of system
RAM, estimate the cost of every aperture map (`loadGrid` abstracts the
`DataField` read of a map file), abort on estimation failure, tag each
grid's inputs with its cost, parse the template, expand, and run the
scheduler. The result is the trace of write/launch events together with
success or abort; every abort happens before any event is produced. -/
noncomputable def bulk_run (loadGrid : String → Grid) (oracle : List ℕ)
    (sim_inputs : List (MapArgs ℝ)) (num_CPUs sys_RAM : ℝ)
    (init_text : String) : List (SchedEvent ℝ) × Except Unit Unit :=
  let avail_RAM := sys_RAM * 0.90
  let input_maps := sim_inputs.map (fun a => a.aperture_map)
  match estimate_req_RAM (input_maps.map loadGrid) avail_RAM with
  | .error _ => ([], .error ())
  | .ok RAM_per_map =>
    let sim_inputs' := (sim_inputs.zip RAM_per_map).map
      (fun p => { p.1 with RAM_req := p.2 })
    match InputFile.ofText init_text none with
    | .error _ => ([], .error ())
    | .ok init_input_file =>
      match combine_run_args sim_inputs' init_input_file with
      | none => ([], .error ())
      | some input_file_list =>
        ((start_simulations oracle input_file_list num_CPUs avail_RAM).events,
          .ok ())

/-! ## Scheduler lemmas -/

/-- Deleting an entry from a list of non-negative reservations cannot
increase the sum. -/
theorem sum_eraseIdx_le {α : Type} [LinearOrderedField α] :
    ∀ (l : List α) (i : ℕ), (∀ v ∈ l, 0 ≤ v) → (l.eraseIdx i).sum ≤ l.sum := by
  intro l
  induction l with
  | nil => intro i _; simp
  | cons a l ih =>
    intro i h
    cases i with
    | zero =>
      simp only [List.eraseIdx_zero, List.tail_cons, List.sum_cons]
      have := h a (by simp)
      linarith
    | succ i =>
      simp only [List.eraseIdx_cons_succ, List.sum_cons]
      have := ih i (fun v hv => h v (by simp [hv]))
      linarith

/-- `tryAdmit` returns `none` exactly when no queued document fits. -/
theorem tryAdmit_eq_none_iff {α : Type} [LinearOrderedField α] (free_RAM : α)
    (q : List (InputFile α)) :
    tryAdmit free_RAM q = none ↔ ∀ j ∈ q, free_RAM < j.RAM_req := by
  induction q with
  | nil => simp [tryAdmit]
  | cons j rest ih =>
    rw [tryAdmit]
    by_cases h : j.RAM_req ≤ free_RAM
    · simp only [if_pos h]
      constructor
      · intro hc; cases hc
      · intro hall
        exact absurd h (not_le.mpr (hall j (by simp)))
    · simp only [if_neg h, Option.map_eq_none', ih]
      constructor
      · intro hall j0 hj0
        rcases List.mem_cons.mp hj0 with rfl | hm
        · exact not_le.mp h
        · exact hall j0 hm
      · intro hall j0 hj0
        exact hall j0 (by simp [hj0])

/-- `tryAdmit` pops exactly the first queued document that fits. -/
theorem tryAdmit_eq_some {α : Type} [LinearOrderedField α] (free_RAM : α) :
    ∀ (q : List (InputFile α)) (j : InputFile α) (q' : List (InputFile α)),
    tryAdmit free_RAM q = some (j, q') →
    ∃ i, ∃ hi : i < q.length,
      j = q.get ⟨i, hi⟩ ∧ j.RAM_req ≤ free_RAM ∧
      (∀ k, ∀ hk : k < q.length, k < i → free_RAM < (q.get ⟨k, hk⟩).RAM_req) ∧
      q' = q.eraseIdx i := by
  intro q
  induction q with
  | nil => intro j q' h; simp [tryAdmit] at h
  | cons a rest ih =>
    intro j q' h
    rw [tryAdmit] at h
    by_cases hfit : a.RAM_req ≤ free_RAM
    · rw [if_pos hfit] at h
      cases h
      exact ⟨0, by simp, rfl, hfit, fun k hk hk0 => absurd hk0 (Nat.not_lt_zero k),
        by simp⟩
    · rw [if_neg hfit] at h
      match hr : tryAdmit free_RAM rest with
      | none => rw [hr] at h; simp at h
      | some (j0, q0) =>
        rw [hr] at h
        cases h
        obtain ⟨i, hi, hj, hle, hmin, hq⟩ := ih j0 q0 hr
        refine ⟨i + 1, by simpa using Nat.succ_lt_succ hi, by simpa using hj, hle,
          ?_, by simp [hq]⟩
        intro k hk hki
        cases k with
        | zero => simpa using not_le.mp hfit
        | succ k =>
          exact hmin k (by simpa using Nat.lt_of_succ_lt_succ hk)
            (Nat.lt_of_succ_lt_succ hki)

/-- The memory invariant the scheduler maintains: all reservations and all
queued requirements are non-negative, and the reserved sum is within the
budget. -/
def MemInv {α : Type} [LinearOrderedField α] (avail_RAM : α)
    (s : SchedState α) : Prop :=
  (∀ v ∈ s.RAM_in_use, 0 ≤ v) ∧ (∀ j ∈ s.queue, 0 ≤ j.RAM_req) ∧
    s.RAM_in_use.sum ≤ avail_RAM

/-- One admission preserves the memory invariant: the admitted document was
required to fit in the free memory. -/
theorem admitOnce_memInv {α : Type} [LinearOrderedField α]
    {num_CPUs avail_RAM : α} {s t : SchedState α}
    (hinv : MemInv avail_RAM s) (h : admitOnce num_CPUs avail_RAM s = some t) :
    MemInv avail_RAM t := by
  obtain ⟨hres, hq, hsum⟩ := hinv
  rw [admitOnce] at h
  split at h
  · cases h
  · match hr : tryAdmit (avail_RAM - s.RAM_in_use.sum) s.queue with
    | none => rw [hr] at h; cases h
    | some (j, q') =>
      rw [hr] at h
      cases h
      obtain ⟨i, hi, hj, hle, _, hq'⟩ := tryAdmit_eq_some _ _ _ _ hr
      have hjmem : j ∈ s.queue := hj ▸ s.queue.get_mem i hi
      refine ⟨?_, ?_, ?_⟩
      · intro v hv
        rcases List.mem_append.mp hv with hv | hv
        · exact hres v hv
        · rcases List.mem_singleton.mp hv with rfl
          exact hq j hjmem
      · intro j0 hj0
        exact hq j0 (List.Sublist.mem (hq' ▸ hj0 : j0 ∈ s.queue.eraseIdx i)
          (s.queue.eraseIdx_sublist i))
      · rw [List.sum_append, List.sum_cons, List.sum_nil, add_zero]
        linarith

/-- One reap preserves the memory invariant: a non-negative reservation is
removed, so the sum does not grow. -/
theorem checkProcessesStep_memInv {α : Type} [LinearOrderedField α]
    {avail_RAM : α} {s : SchedState α} (hinv : MemInv avail_RAM s) (i : ℕ) :
    MemInv avail_RAM (checkProcessesStep s i) := by
  obtain ⟨hres, hq, hsum⟩ := hinv
  refine ⟨?_, hq, ?_⟩
  · intro v hv
    exact hres v (List.Sublist.mem hv (s.RAM_in_use.eraseIdx_sublist i))
  · exact le_trans (sum_eraseIdx_le _ _ hres) hsum

/-- The memory invariant holds at every reachable state. -/
theorem reach_memInv {α : Type} [LinearOrderedField α]
    {num_CPUs avail_RAM : α} {s0 s : SchedState α}
    (hr : Reach num_CPUs avail_RAM s0 s) (hinv : MemInv avail_RAM s0) :
    MemInv avail_RAM s := by
  induction hr with
  | refl => exact hinv
  | reap i _ ih => exact checkProcessesStep_memInv ih i
  | grant _ hstep ih => exact admitOnce_memInv ih hstep

/-- `start_run` only takes `Reach` admission steps. -/
theorem reach_start_run {α : Type} [LinearOrderedField α]
    {num_CPUs avail_RAM : α} {s0 : SchedState α} :
    ∀ (n : ℕ) (t : SchedState α), t.queue.length ≤ n →
    Reach num_CPUs avail_RAM s0 t →
    Reach num_CPUs avail_RAM s0 (start_run num_CPUs avail_RAM t) := by
  intro n
  induction n with
  | zero =>
    intro t hlen hr
    rw [start_run]
    match h : admitOnce num_CPUs avail_RAM t with
    | none => exact hr
    | some u =>
      have := admitOnce_queue_lt _ _ _ _ h
      omega
  | succ n ih =>
    intro t hlen hr
    rw [start_run]
    match h : admitOnce num_CPUs avail_RAM t with
    | none => exact hr
    | some u =>
      have hlt := admitOnce_queue_lt _ _ _ _ h
      exact ih u (by omega) (.grant hr h)

/-- `simLoop` (the body of `start_simulations`) only visits `Reach`-able
states. -/
theorem reach_simLoop {α : Type} [LinearOrderedField α]
    {num_CPUs avail_RAM : α} {s0 : SchedState α} :
    ∀ (oracle : List ℕ) (s : SchedState α),
    Reach num_CPUs avail_RAM s0 s →
    Reach num_CPUs avail_RAM s0 (simLoop num_CPUs avail_RAM oracle s) := by
  intro oracle
  induction oracle with
  | nil =>
    intro s hr
    rw [simLoop]
    split <;> exact hr
  | cons i rest ih =>
    intro s hr
    rw [simLoop]
    split
    · exact hr
    · exact ih _ (reach_start_run _ _ le_rfl (.reap i hr))

/-- The final state of `start_simulations` is reachable from its initial
state. -/
theorem reach_start_simulations {α : Type} [LinearOrderedField α]
    (oracle : List ℕ) (input_file_list : List (InputFile α))
    (num_CPUs avail_RAM : α) :
    Reach num_CPUs avail_RAM (initState input_file_list)
      (start_simulations oracle input_file_list num_CPUs avail_RAM) :=
  reach_simLoop oracle _ (.refl _)

/-- A successful admission requires a free slot and appends exactly one
process. -/
theorem admitOnce_processes {α : Type} [LinearOrderedField α]
    {num_CPUs avail_RAM : α} {s t : SchedState α}
    (h : admitOnce num_CPUs avail_RAM s = some t) :
    (s.processes.length : α) < num_CPUs ∧
      t.processes.length = s.processes.length + 1 := by
  rw [admitOnce] at h
  split at h
  · cases h
  · refine ⟨not_le.mp (by assumption), ?_⟩
    match hr : tryAdmit (avail_RAM - s.RAM_in_use.sum) s.queue with
    | none => rw [hr] at h; cases h
    | some (j, q') => rw [hr] at h; cases h; simp

/-- The slot bound is preserved along every scheduler step. -/
theorem reach_length_le {α : Type} [LinearOrderedField α]
    {avail_RAM : α} {N : ℕ} {s0 s : SchedState α}
    (hr : Reach (N : α) avail_RAM s0 s) (h0 : s0.processes.length ≤ N) :
    s.processes.length ≤ N := by
  induction hr with
  | refl => exact h0
  | reap i _ ih =>
    simp only [checkProcessesStep, List.length_eraseIdx]
    split <;> omega
  | grant _ hstep ih =>
    obtain ⟨hlt, hlen⟩ := admitOnce_processes hstep
    have : _ < N := Nat.cast_lt.mp hlt
    omega

/-- **C1.** During any execution of the scheduler loop (`start_simulations`
/ `start_run`), the sum of reserved memory over the active slots
(`sum(RAM_in_use)`) never exceeds the budget `avail_RAM`: a job is admitted
only when its `RAM_req` fits in the current free memory, so every state
reachable from the initial state — and in particular every state
`start_simulations` reaches — keeps the reserved sum within the budget. -/
theorem scheduler_memory_budget_invariant {α : Type} [LinearOrderedField α]
    (num_CPUs avail_RAM : α) (q : List (InputFile α)) (s : SchedState α)
    (hB : 0 ≤ avail_RAM) (hq : ∀ j ∈ q, 0 ≤ j.RAM_req)
    (hr : Reach num_CPUs avail_RAM (initState q) s) :
    s.RAM_in_use.sum ≤ avail_RAM ∧
      ∀ oracle : List ℕ,
        (start_simulations oracle q num_CPUs avail_RAM).RAM_in_use.sum ≤
          avail_RAM := by
  have hinit : MemInv avail_RAM (initState (α := α) q) := by
    refine ⟨?_, hq, ?_⟩
    · intro v hv
      rcases List.mem_singleton.mp hv with rfl
      exact le_refl 0
    · simpa [initState] using hB
  exact ⟨(reach_memInv hr hinit).2.2,
    fun oracle =>
      (reach_memInv (reach_start_simulations oracle q num_CPUs avail_RAM)
        hinit).2.2⟩

/-- Witness for C1 at a concrete run over `ℚ`: budget 1, two slots, one
queued job of requirement 1, after the admission step that launches it. -/
def c1_job : InputFile ℚ := { InputFile.init (α := ℚ) none with RAM_req := 1 }

/-- The state of the C1 witness after its single admission. -/
def c1_state : SchedState ℚ :=
  { processes := [.dummy, .popen c1_job], RAM_in_use := [0, 1], queue := [],
    events := [.write c1_job, .launch c1_job] }

/-- C1 applied at a concrete input: the reserved sum stays within the
budget 1 after admitting the queued job. -/
theorem scheduler_memory_budget_invariant_witness :
    c1_state.RAM_in_use.sum ≤ (1 : ℚ) ∧
      ∀ oracle : List ℕ,
        (start_simulations oracle [c1_job] 2 1).RAM_in_use.sum ≤ (1 : ℚ) :=
  scheduler_memory_budget_invariant 2 1 [c1_job] c1_state (by norm_num)
    (by decide)
    (Reach.grant (Reach.refl _)
      (by rw [admitOnce, initState]; norm_num; rw [tryAdmit]
          norm_num [c1_job, c1_state]))

/-- **C2.** Admission is first-fit in queue order: when `start_run`'s
admission step launches a job, that job is the first queued document
(lowest index) whose `RAM_req` fits in the current free memory, it is
removed from the queue, its file is written, and a slot reserving its
memory is appended; when no queued document fits, the step admits nothing
(the loop breaks back to the reap step). -/
theorem start_run_admits_first_fit {α : Type} [LinearOrderedField α]
    (num_CPUs avail_RAM : α) (s : SchedState α) :
    (∀ t, admitOnce num_CPUs avail_RAM s = some t →
      ∃ i, ∃ hi : i < s.queue.length,
        (s.queue.get ⟨i, hi⟩).RAM_req ≤ avail_RAM - s.RAM_in_use.sum ∧
        (∀ k, ∀ hk : k < s.queue.length, k < i →
          avail_RAM - s.RAM_in_use.sum < (s.queue.get ⟨k, hk⟩).RAM_req) ∧
        t = { processes := s.processes ++ [.popen (s.queue.get ⟨i, hi⟩)],
              RAM_in_use := s.RAM_in_use ++ [(s.queue.get ⟨i, hi⟩).RAM_req],
              queue := s.queue.eraseIdx i,
              events := s.events ++ [.write (s.queue.get ⟨i, hi⟩),
                .launch (s.queue.get ⟨i, hi⟩)] }) ∧
    ((∀ j ∈ s.queue, avail_RAM - s.RAM_in_use.sum < j.RAM_req) →
      admitOnce num_CPUs avail_RAM s = none) := by
  constructor
  · intro t h
    rw [admitOnce] at h
    split at h
    · cases h
    · match hr : tryAdmit (avail_RAM - s.RAM_in_use.sum) s.queue with
      | none => rw [hr] at h; cases h
      | some (j, q') =>
        rw [hr] at h
        cases h
        obtain ⟨i, hi, hj, hle, hmin, hq⟩ := tryAdmit_eq_some _ _ _ _ hr
        exact ⟨i, hi, hj ▸ hle, hmin, by rw [hq, hj]⟩
  · intro hall
    rw [admitOnce]
    split
    · rfl
    · rw [(tryAdmit_eq_none_iff _ _).mpr hall]

/-- **C3.** The number of active processes never exceeds the slot count
`num_CPUs`: `start_run` stops admitting as soon as the process list reaches
`num_CPUs`, each reap deletes exactly one completed slot, and every state
reachable from the initial state — in particular every state
`start_simulations` reaches — keeps at most `num_CPUs` processes. -/
theorem scheduler_slot_count_invariant {α : Type} [LinearOrderedField α]
    (N : ℕ) (avail_RAM : α) (q : List (InputFile α)) (s : SchedState α)
    (hN : 1 ≤ N) (hr : Reach (N : α) avail_RAM (initState q) s) :
    s.processes.length ≤ N ∧
      (∀ oracle : List ℕ,
        (start_simulations oracle q (N : α) avail_RAM).processes.length ≤ N) ∧
      (∀ (t : SchedState α) (i : ℕ), i < t.processes.length →
        (checkProcessesStep t i).processes.length + 1 = t.processes.length) := by
  have h0 : (initState (α := α) q).processes.length ≤ N := by
    simpa [initState] using hN
  refine ⟨reach_length_le hr h0, ?_, ?_⟩
  · intro oracle
    exact reach_length_le (reach_start_simulations oracle q (N : α) avail_RAM) h0
  · intro t i hi
    simpa [checkProcessesStep] using List.length_eraseIdx_add_one hi

/-- C3 applied at a concrete input over `ℚ`: with 2 slots, after admitting
the one queued job the process count 2 is within the bound 2. -/
theorem scheduler_slot_count_invariant_witness :
    c1_state.processes.length ≤ 2 ∧
      (∀ oracle : List ℕ,
        (start_simulations oracle [c1_job] ((2 : ℕ) : ℚ) 1).processes.length ≤ 2) ∧
      (∀ (t : SchedState ℚ) (i : ℕ), i < t.processes.length →
        (checkProcessesStep t i).processes.length + 1 = t.processes.length) :=
  scheduler_slot_count_invariant 2 1 [c1_job] c1_state (by norm_num)
    (Reach.grant (Reach.refl _)
      (by rw [admitOnce, initState]; norm_num; rw [tryAdmit]
          norm_num [c1_job, c1_state]))

/-! ## Estimator claims -/

/-- **C9.** The memory-cost estimate is strictly monotonic in grid area:
for grids `A`, `B` with positive dimensions and `area A < area B`,
`ram_est A < ram_est B` — the cost is
`C1 * ((width*height)^2) ** C2 * 2^(-20)` with positive calibration
constants. -/
theorem estimate_monotone_in_area (A B : Grid)
    (hA1 : 0 < A.nx) (hA2 : 0 < A.nz) (hB1 : 0 < B.nx) (hB2 : 0 < B.nz)
    (harea : A.nx * A.nz < B.nx * B.nz) : ram_est A < ram_est B := by
  unfold ram_est
  have hcast : ((A.nx * A.nz : ℕ) : ℝ) < ((B.nx * B.nz : ℕ) : ℝ) := by
    exact_mod_cast harea
  have hsq : (((A.nx * A.nz : ℕ) : ℝ)) ^ 2 < (((B.nx * B.nz : ℕ) : ℝ)) ^ 2 :=
    pow_lt_pow_left₀ hcast (by positivity) (by norm_num)
  have hr : ((((A.nx * A.nz : ℕ) : ℝ)) ^ 2) ^ (0.72578813 : ℝ) <
      ((((B.nx * B.nz : ℕ) : ℝ)) ^ 2) ^ (0.72578813 : ℝ) :=
    Real.rpow_lt_rpow (by positivity) hsq (by norm_num)
  have h2 : (0 : ℝ) < (2 : ℝ) ^ (-20 : ℤ) := by positivity
  have hc : (0 : ℝ) < (0.00505193 : ℝ) := by norm_num
  calc 0.00505193 * ((((A.nx * A.nz : ℕ) : ℝ)) ^ 2) ^ (0.72578813 : ℝ) *
        (2 : ℝ) ^ (-20 : ℤ)
      < 0.00505193 * ((((B.nx * B.nz : ℕ) : ℝ)) ^ 2) ^ (0.72578813 : ℝ) *
        (2 : ℝ) ^ (-20 : ℤ) := by
        exact mul_lt_mul_of_pos_right (mul_lt_mul_of_pos_left hr hc) h2

/-- C9 applied at concrete grids: a 1×1 grid costs strictly less than a
1×2 grid. -/
theorem estimate_monotone_in_area_witness :
    ram_est ⟨1, 1⟩ < ram_est ⟨1, 2⟩ :=
  estimate_monotone_in_area ⟨1, 1⟩ ⟨1, 2⟩ (by norm_num) (by norm_num)
    (by norm_num) (by norm_num) (by norm_num)

/-- **C4.** When the estimated cost of any grid in the batch exceeds the
available budget, `estimate_req_RAM` fails the whole batch after reporting
every offending grid with its required and available GB; in `bulk_run` this
failure happens before any input file is written and before any external
process is launched (the event trace of the aborted run is empty). -/
theorem estimate_req_RAM_aborts_batch (loadGrid : String → Grid)
    (oracle : List ℕ) (sim_inputs : List (MapArgs ℝ)) (num_CPUs sys_RAM : ℝ)
    (init_text : String)
    (hbad : ∃ m ∈ sim_inputs, sys_RAM * 0.90 < ram_est (loadGrid m.aperture_map)) :
    (∃ offs,
      estimate_req_RAM ((sim_inputs.map (fun a => a.aperture_map)).map loadGrid)
          (sys_RAM * 0.90) = .error offs ∧
      offs ≠ [] ∧
      (∀ g ∈ (sim_inputs.map (fun a => a.aperture_map)).map loadGrid,
        sys_RAM * 0.90 < ram_est g → (g, ram_est g, sys_RAM * 0.90) ∈ offs)) ∧
    bulk_run loadGrid oracle sim_inputs num_CPUs sys_RAM init_text =
      ([], .error ()) := by
  obtain ⟨m, hm, hlt⟩ := hbad
  set maps := (sim_inputs.map (fun a => a.aperture_map)).map loadGrid with hmaps
  have hmem : loadGrid m.aperture_map ∈ maps := by
    exact List.mem_map_of_mem loadGrid
      (List.mem_map_of_mem (fun a => a.aperture_map) hm)
  have hfil : loadGrid m.aperture_map ∈
      maps.filter (fun g => decide (sys_RAM * 0.90 < ram_est g)) :=
    List.mem_filter.mpr ⟨hmem, by simpa using hlt⟩
  have hne : ¬ ((maps.filter
      (fun g => decide (sys_RAM * 0.90 < ram_est g))).map
        (fun g => (g, ram_est g, sys_RAM * 0.90))).isEmpty = true := by
    rcases hfe : maps.filter (fun g => decide (sys_RAM * 0.90 < ram_est g)) with
      _ | ⟨a, l⟩
    · rw [hfe] at hfil; cases hfil
    · simp [hfe]
  have hest : estimate_req_RAM maps (sys_RAM * 0.90) =
      .error ((maps.filter (fun g => decide (sys_RAM * 0.90 < ram_est g))).map
        (fun g => (g, ram_est g, sys_RAM * 0.90))) := by
    rw [estimate_req_RAM]
    rw [if_neg hne]
  refine ⟨⟨_, hest, ?_, ?_⟩, ?_⟩
  · intro hnil
    rw [hnil] at hne
    exact hne rfl
  · intro g hg hglt
    exact List.mem_map_of_mem _ (List.mem_filter.mpr ⟨hg, by simpa using hglt⟩)
  · rw [bulk_run]
    simp only [← hmaps, hest]

/-- The concrete offending batch for the C4 witness: one map whose grid is
1×1 against a zero memory budget. -/
def c4_inputs : List (MapArgs ℝ) := [⟨"m1", [], [], 0⟩]

/-- The 1×1 grid's estimate is strictly positive (so it exceeds a zero
budget). -/
theorem ram_est_one_pos : (0 : ℝ) * 0.90 < ram_est ⟨1, 1⟩ := by
  unfold ram_est
  have h1 : (((1 * 1 : ℕ) : ℝ)) ^ 2 = 1 := by norm_num
  have h0 : (0 : ℝ) * 0.90 = 0 := by norm_num
  rw [h1, Real.one_rpow, h0]
  positivity

/-- C4 applied at a concrete input: a batch with one 1×1 grid and a zero
budget aborts with a non-empty offender report and an empty event trace. -/
theorem estimate_req_RAM_aborts_batch_witness :
    (∃ offs,
      estimate_req_RAM ((c4_inputs.map (fun a => a.aperture_map)).map
          (fun x => Grid.mk 1 1)) ((0 : ℝ) * 0.90) = .error offs ∧
      offs ≠ [] ∧
      (∀ g ∈ (c4_inputs.map (fun a => a.aperture_map)).map (fun x => Grid.mk 1 1),
        (0 : ℝ) * 0.90 < ram_est g → (g, ram_est g, (0 : ℝ) * 0.90) ∈ offs)) ∧
    bulk_run (fun x => Grid.mk 1 1) [] c4_inputs 4 0 "EXE-FILE: sim" =
      ([], .error ()) :=
  estimate_req_RAM_aborts_batch (fun x => Grid.mk 1 1) [] c4_inputs 4 0
    "EXE-FILE: sim" ⟨⟨"m1", [], [], 0⟩, by simp [c4_inputs], ram_est_one_pos⟩

/-! ## ConfigLine update claims -/

/-- **C5, counterexample.** Parsing `"KEY: "` (a last token ending in `:`
followed only by whitespace) records the out-of-range slot index 1 into the
one-token list `["KEY:"]`; updating that line does **not** fall back to
replacing the whole line — it fails (the source's
`self.line_arr[self.value_index] = new_value` raises `IndexError`). -/
theorem update_value_out_of_range_counterexample :
    (ArgInput.parse "KEY: ").value_index = 1 ∧
      (ArgInput.parse "KEY: ").line_arr = ["KEY:"] ∧
      (ArgInput.parse "KEY: ").update_value "X" true = none := by
  refine ⟨by decide, by decide, by decide⟩

/-- **C5, amended.** `update_value` on a line whose recorded value-slot
index is positive but out of range of its token list fails (Python raises
an uncaught `IndexError`); the fall-back that replaces the whole line
applies only to lines with no slot index (`value_index ≤ 0`, i.e. the
sentinel `-1`). -/
theorem update_value_out_of_range_raises (a : ArgInput) (new_value : String) :
    (0 < a.value_index → a.line_arr.length ≤ a.value_index.toNat →
      a.update_value new_value true = none) ∧
    (a.value_index ≤ 0 →
      a.update_value new_value true =
        some { a with
          commented_out := false
          line_arr := splitEvery new_value
          line := String.intercalate " " (splitEvery new_value)
          value := new_value }) := by
  constructor
  · intro hpos hlen
    rw [ArgInput.update_value]
    rw [if_pos hpos, if_neg (not_lt.mpr hlen)]
  · intro hle
    rw [ArgInput.update_value]
    rw [if_neg (not_lt.mpr hle)]
    simp

/-! ## Clone field-reset claim -/

/-- **C10.** For every source document and filename-format override, the
clone has its memory-cost field reset to `0`, an empty extra-placeholder
mapping, and the default output file name, regardless of the source's
values; only the lines (re-parsed from their output text), the keyword
order, and the filename-template mapping (the override when given,
otherwise the source's, completed with the default `input_file` entry) are
carried over. -/
theorem clone_resets_fields {α : Type} [Zero α] (f : InputFile α)
    (file_formats : Option (List (String × String))) :
    (f.clone file_formats).RAM_req = 0 ∧
    (f.clone file_formats).filename_format_args = [] ∧
    (f.clone file_formats).outfile_name = defaultOutfile ∧
    (f.clone file_formats).arg_order = f.arg_order ∧
    (f.clone file_formats).arg_dict =
      f.arg_dict.map (fun p => (p.1, ArgInput.parse (p.2.output_line))) ∧
    (f.clone file_formats).filename_formats =
      (InputFile.init (α := α) (some (file_formats.getD f.filename_formats))).filename_formats := by
  refine ⟨rfl, rfl, rfl, rfl, rfl, rfl⟩

/-! ## Expander claims -/

/-- `listProd` yields one combination per element of the product of the
axis lengths. -/
theorem listProd_length {β : Type} :
    ∀ ls : List (List β), (listProd ls).length = (ls.map List.length).prod := by
  intro ls
  induction ls with
  | nil => rfl
  | cons l rest ih =>
    simp only [listProd, List.length_flatMap, Function.comp_def, List.length_map, ih,
      List.map_const', List.sum_replicate, smul_eq_mul, List.map_cons, List.prod_cons]

/-- A combination is produced exactly when it picks one element of each
axis, in axis order. -/
theorem listProd_mem {β : Type} :
    ∀ (ls : List (List β)) (c : List β),
    c ∈ listProd ls ↔ List.Forall₂ (fun v l => v ∈ l) c ls := by
  intro ls
  induction ls with
  | nil =>
    intro c
    simp [listProd, List.forall₂_nil_right_iff]
  | cons l rest ih =>
    intro c
    simp only [listProd, List.mem_flatMap, List.mem_map,
      List.forall₂_cons_right_iff]
    constructor
    · rintro ⟨x, hx, c', hc', rfl⟩
      exact ⟨x, c', hx, (ih c').mp hc', rfl⟩
    · rintro ⟨x, c', hx, hc', rfl⟩
      exact ⟨x, hx, c', (ih c').mpr hc', rfl⟩

/-- When every axis list is duplicate-free so is the product. -/
theorem listProd_nodup {β : Type} :
    ∀ ls : List (List β), (∀ l ∈ ls, l.Nodup) → (listProd ls).Nodup := by
  intro ls
  induction ls with
  | nil => intro _; simp [listProd]
  | cons l rest ih =>
    intro h
    have hl : l.Nodup := h l (by simp)
    have hrest : (listProd rest).Nodup := ih (fun l0 hl0 => h l0 (by simp [hl0]))
    rw [listProd, List.nodup_flatMap]
    refine ⟨fun x _ => hrest.map (fun a b hab => by simpa using hab), ?_⟩
    refine hl.imp_of_mem ?_
    intro a b _ _ hab
    intro c hca hcb
    obtain ⟨ca, _, rfl⟩ := List.mem_map.mp hca
    obtain ⟨cb, _, hcb'⟩ := List.mem_map.mp hcb
    exact hab (by simpa using congrArg (fun x => x.head?) hcb'.symm)

/-- The strict lexicographic order on combinations induced by the axes:
compare the first coordinates by their position in the first axis, and on a
tie recurse into the remaining coordinates. -/
def combLt {β : Type} [DecidableEq β] :
    List (List β) → List β → List β → Prop
  | axis :: axes, x :: xs, y :: ys =>
    axis.indexOf x < axis.indexOf y ∨ (x = y ∧ combLt axes xs ys)
  | _, _, _ => False

/-- In a duplicate-free list, positions order the elements. -/
theorem nodup_pairwise_indexOf {β : Type} [DecidableEq β] (l : List β)
    (h : l.Nodup) : l.Pairwise (fun x y => l.indexOf x < l.indexOf y) := by
  rw [List.pairwise_iff_getElem]
  intro i j hi hj hij
  rw [List.indexOf_getElem h i hi, List.indexOf_getElem h j hj]
  exact hij

/-- With duplicate-free axes, `listProd` enumerates the combinations in
strictly increasing lexicographic order (leftmost axis slowest, values in
axis order) — the order of `itertools.product`. -/
theorem listProd_pairwise {β : Type} [DecidableEq β] :
    ∀ ls : List (List β), (∀ l ∈ ls, l.Nodup) →
    (listProd ls).Pairwise (combLt ls) := by
  intro ls
  induction ls with
  | nil => intro _; simp [listProd]
  | cons l rest ih =>
    intro h
    have hl : l.Nodup := h l (by simp)
    have hrest := ih (fun l0 hl0 => h l0 (by simp [hl0]))
    rw [listProd, List.flatMap_def, List.pairwise_flatten]
    constructor
    · intro L hL
      obtain ⟨x, _, rfl⟩ := List.mem_map.mp hL
      rw [List.pairwise_map]
      refine hrest.imp ?_
      intro c c' hcc'
      exact Or.inr ⟨rfl, hcc'⟩
    · rw [List.pairwise_map]
      refine (nodup_pairwise_indexOf l hl).imp_of_mem ?_
      intro x y _ _ hxy
      intro a ha b hb
      obtain ⟨ca, _, rfl⟩ := List.mem_map.mp ha
      obtain ⟨cb, _, rfl⟩ := List.mem_map.mp hb
      exact Or.inl hxy

/-- A successful `buildDocs` produces one document per combination, each by
`mkDoc`. -/
theorem buildDocs_some {α : Type} [Zero α] (init_input_file : InputFile α)
    (m : MapArgs α) :
    ∀ (cs : List (List String)) (ds : List (InputFile α)),
    buildDocs init_input_file m cs = some ds →
    ds.length = cs.length ∧
      List.Forall₂ (fun c d => mkDoc init_input_file m c = some d) cs ds := by
  intro cs
  induction cs with
  | nil =>
    intro ds h
    cases h
    exact ⟨rfl, List.Forall₂.nil⟩
  | cons c rest ih =>
    intro ds h
    rw [buildDocs] at h
    match hd : mkDoc init_input_file m c, hr : buildDocs init_input_file m rest with
    | some d, some ds' =>
      rw [hd, hr] at h
      cases h
      obtain ⟨hlen, hall⟩ := ih ds' hr
      exact ⟨by simp [hlen], List.Forall₂.cons hd hall⟩
    | some _, none => rw [hd, hr] at h; cases h
    | none, _ => rw [hd] at h; cases h

/-- **C6.** `combine_run_args` expands every grid into exactly the product
of its parameter-value-list lengths, one document per Cartesian
combination via `mkDoc`; the produced combinations are exactly the full
Cartesian product (membership characterisation), without duplicates when
the axes are duplicate-free, enumerated lexicographically in parameter
declaration order with values in list order; and the flat output is grids
outer, combinations inner. -/
theorem combine_run_args_cartesian_product {α : Type} [Zero α] :
    ∀ (ms : List (MapArgs α)) (init_input_file : InputFile α)
      (lst : List (InputFile α)),
    combine_run_args ms init_input_file = some lst →
    lst.length = (ms.map
      (fun m => ((m.run_params.map Prod.snd).map List.length).prod)).sum ∧
    (∀ m ∈ ms, ∀ ds, perGridDocs init_input_file m = some ds →
      ds.length = ((m.run_params.map Prod.snd).map List.length).prod ∧
      List.Forall₂ (fun c d => mkDoc init_input_file m c = some d)
        (listProd (m.run_params.map Prod.snd)) ds) ∧
    (∀ m ∈ ms, ∀ c, c ∈ listProd (m.run_params.map Prod.snd) ↔
      List.Forall₂ (fun v l => v ∈ l) c (m.run_params.map Prod.snd)) ∧
    (∀ m ∈ ms, (∀ l ∈ m.run_params.map Prod.snd, l.Nodup) →
      (listProd (m.run_params.map Prod.snd)).Nodup ∧
      (listProd (m.run_params.map Prod.snd)).Pairwise
        (combLt (m.run_params.map Prod.snd))) ∧
    (∀ m rest0, ms = m :: rest0 → ∀ ds tail,
      perGridDocs init_input_file m = some ds →
      combine_run_args rest0 init_input_file = some tail →
      lst = ds ++ tail) := by
  intro ms
  induction ms with
  | nil =>
    intro init lst h
    cases h
    refine ⟨rfl, by simp, by simp, by simp, ?_⟩
    intro m rest0 h
    cases h
  | cons m0 rest ih =>
    intro init lst h
    rw [combine_run_args] at h
    match hd : perGridDocs init m0, hr : combine_run_args rest init with
    | some ds, some tail =>
      rw [hd, hr] at h
      cases h
      obtain ⟨hlen, hgrid, hmem, hnod, _⟩ := ih init tail hr
      have hthis := buildDocs_some init m0 _ ds hd
      refine ⟨?_, ?_, ?_, ?_, ?_⟩
      · simp only [List.length_append, List.map_cons, List.sum_cons, hlen,
          hthis.1, listProd_length]
      · intro m hm ds0 hds0
        rcases List.mem_cons.mp hm with rfl | hm
        · have hb := buildDocs_some init m _ ds0 hds0
          exact ⟨hb.1.trans (listProd_length _), hb.2⟩
        · exact hgrid m hm ds0 hds0
      · intro m _ c
        exact listProd_mem _ c
      · intro m _ hax
        exact ⟨listProd_nodup _ hax, listProd_pairwise _ hax⟩
      · intro m rest0 heq ds0 tail0 hds0 htail0
        injection heq with h1 h2
        subst h1; subst h2
        rw [hds0] at hd; cases hd
        rw [htail0] at hr; cases hr
        rfl
    | some _, none => rw [hd, hr] at h; cases h
    | none, _ => rw [hd] at h; cases h

/-- Concrete template for the C6 witness. -/
def c6_init : InputFile ℚ := InputFile.init (α := ℚ) none

/-- Concrete grid specification for the C6 witness: two axes of lengths 2
and 1. -/
def c6_map : MapArgs ℚ := ⟨"map1", [("P", ["1", "2"]), ("Q", ["10"])], [], 3⟩

/-- The documents the expander produces for the C6 witness. -/
def c6_docs : List (InputFile ℚ) :=
  (combine_run_args [c6_map] c6_init).getD []

/-- C6 applied at a concrete input: one grid with axes `P = [1, 2]`,
`Q = [10]` yields exactly `2 * 1` documents with the expected product
structure. -/
theorem combine_run_args_cartesian_product_witness :
    c6_docs.length = ([c6_map].map
      (fun m => ((m.run_params.map Prod.snd).map List.length).prod)).sum ∧
    (∀ m ∈ [c6_map], ∀ ds, perGridDocs c6_init m = some ds →
      ds.length = ((m.run_params.map Prod.snd).map List.length).prod ∧
      List.Forall₂ (fun c d => mkDoc c6_init m c = some d)
        (listProd (m.run_params.map Prod.snd)) ds) ∧
    (∀ m ∈ [c6_map], ∀ c, c ∈ listProd (m.run_params.map Prod.snd) ↔
      List.Forall₂ (fun v l => v ∈ l) c (m.run_params.map Prod.snd)) ∧
    (∀ m ∈ [c6_map], (∀ l ∈ m.run_params.map Prod.snd, l.Nodup) →
      (listProd (m.run_params.map Prod.snd)).Nodup ∧
      (listProd (m.run_params.map Prod.snd)).Pairwise
        (combLt (m.run_params.map Prod.snd))) ∧
    (∀ m rest0, [c6_map] = m :: rest0 → ∀ ds tail,
      perGridDocs c6_init m = some ds →
      combine_run_args rest0 c6_init = some tail →
      c6_docs = ds ++ tail) :=
  combine_run_args_cartesian_product [c6_map] c6_init c6_docs rfl

/-! ## Round-trip (serialisation fidelity) claims -/

/-- Inserting a new key appends it at the end. -/
theorem dictInsert_not_mem {β : Type} :
    ∀ (d : List (String × β)) (k : String) (v : β),
    k ∉ d.map Prod.fst → dictInsert d k v = d ++ [(k, v)] := by
  intro d
  induction d with
  | nil => intro k v _; rfl
  | cons p rest ih =>
    intro k v hk
    simp only [List.map_cons, List.mem_cons, not_or] at hk
    rw [dictInsert, if_neg (fun he => hk.1 he.symm), ih k v hk.2]
    rfl

/-- Looking up an absent key fails. -/
theorem dictLookup_eq_none {β : Type} :
    ∀ (d : List (String × β)) (k : String),
    k ∉ d.map Prod.fst → dictLookup d k = none := by
  intro d
  induction d with
  | nil => intro k _; rfl
  | cons p rest ih =>
    intro k hk
    simp only [List.map_cons, List.mem_cons, not_or] at hk
    rw [dictLookup, List.find?_cons_of_neg _ (by simpa using fun he => hk.1 he.symm)]
    exact ih k hk.2

/-- With duplicate-free keys, every stored pair is found. -/
theorem dictLookup_of_nodup {β : Type} :
    ∀ (d : List (String × β)), (d.map Prod.fst).Nodup →
    ∀ p ∈ d, dictLookup d p.1 = some p.2 := by
  intro d
  induction d with
  | nil => intro _ p hp; cases hp
  | cons q rest ih =>
    intro hnd p hp
    rw [List.map_cons, List.nodup_cons] at hnd
    rcases List.mem_cons.mp hp with rfl | hp
    · rw [dictLookup, List.find?_cons_of_pos _ (by simp)]
      rfl
    · have hq : ¬ q.1 = p.1 := by
        intro he
        exact hnd.1 (he ▸ List.mem_map_of_mem Prod.fst hp)
      rw [dictLookup, List.find?_cons_of_neg _ (by simpa using hq)]
      exact ih hnd.2 p hp

/-- A present key is found. -/
theorem dictLookup_isSome_of_mem {β : Type} :
    ∀ (d : List (String × β)) (k : String),
    k ∈ d.map Prod.fst → ∃ v, dictLookup d k = some v := by
  intro d
  induction d with
  | nil => intro k hk; cases hk
  | cons q rest ih =>
    intro k hk
    by_cases hq : q.1 = k
    · exact ⟨q.2, by rw [dictLookup, List.find?_cons_of_pos _ (by simpa using hq)]; rfl⟩
    · rcases List.mem_cons.mp (by simpa using hk : k ∈ q.1 :: rest.map Prod.fst)
        with rfl | hk2
      · exact absurd rfl hq
      · obtain ⟨v, hv⟩ := ih k hk2
        refine ⟨v, ?_⟩
        rw [dictLookup, List.find?_cons_of_neg _ (by simpa using hq)]
        rw [dictLookup] at hv
        exact hv

/-- The keyword of a line as `parse_input_file` records it. -/
def lineKw (l : String) : String := (ArgInput.parse (normalizeLine l)).keyword

/-- The `ArgInput` stored for a line by `parse_input_file`. -/
def lineArg (l : String) : ArgInput := ArgInput.parse (normalizeLine l)

/-- With pairwise-distinct keywords, the parsing loop produces the dict of
all `(keyword, line)` pairs in file order and the order list of all
keywords. -/
theorem parseLines_go :
    ∀ (ls : List String) (d : List (String × ArgInput)) (o : List String),
    (ls.map lineKw).Nodup → (∀ k ∈ ls.map lineKw, k ∉ d.map Prod.fst) →
    ls.foldl
      (fun acc line =>
        let nl := normalizeLine line
        let a := ArgInput.parse nl
        (dictInsert acc.1 a.keyword (ArgInput.parse nl), acc.2 ++ [a.keyword]))
      (d, o) =
      (d ++ ls.map (fun l => (lineKw l, lineArg l)), o ++ ls.map lineKw) := by
  intro ls
  induction ls with
  | nil => intro d o _ _; simp
  | cons l rest ih =>
    intro d o hnd hdisj
    rw [List.foldl_cons]
    have hstep : dictInsert d (lineKw l) (lineArg l) = d ++ [(lineKw l, lineArg l)] :=
      dictInsert_not_mem d _ _ (hdisj (lineKw l) (by simp))
    show rest.foldl _ (dictInsert d (lineKw l) (lineArg l), o ++ [lineKw l]) = _
    rw [hstep]
    rw [ih (d ++ [(lineKw l, lineArg l)]) (o ++ [lineKw l])
      (by simpa using (List.nodup_cons.mp (by simpa using hnd)).2) ?_]
    · simp
    · intro k hk
      have hkl : k ≠ lineKw l := by
        intro he
        exact (List.nodup_cons.mp (by simpa using hnd)).1 (he ▸ hk)
      intro hmem
      rw [List.map_append] at hmem
      rcases List.mem_append.mp hmem with hmem | hmem
      · exact hdisj k (by simp [hk]) hmem
      · exact hkl (by simpa using hmem)

/-- `parseLines` under distinct keywords. -/
theorem parseLines_eq (ls : List String) (hnd : (ls.map lineKw).Nodup) :
    parseLines ls = (ls.map (fun l => (lineKw l, lineArg l)), ls.map lineKw) := by
  have := parseLines_go ls [] [] hnd (by simp)
  simpa [parseLines] using this

/-- `ciReplaceAux` leaves a text alone when no character of the text can
match the first pattern character (case-insensitively). -/
theorem ciReplaceAux_no_match (p0 : Char) (ps repl : List Char) :
    ∀ (fuel : ℕ) (cs : List Char),
    (∀ c ∈ cs, (p0.toLower == c.toLower) = false) →
    ciReplaceAux p0 ps repl fuel cs = cs := by
  intro fuel
  induction fuel with
  | zero => intro cs _; rw [ciReplaceAux]
  | succ fuel ih =>
    intro cs h
    cases cs with
    | nil => rw [ciReplaceAux]
    | cons c rest =>
      rw [ciReplaceAux]
      have hpre : isPrefixCI (p0 :: ps) (c :: rest) = false := by
        rw [isPrefixCI]
        simp [h c (by simp)]
      rw [hpre]
      simp only [Bool.false_eq_true, if_false]
      rw [ih rest (fun c0 hc0 => h c0 (by simp [hc0]))]

/-- No `%keyword%` placeholder ever matches inside the default output file
name (it contains no `%`). -/
theorem ciReplace_defaultOutfile (k repl : String) :
    ciReplace ("%" ++ k ++ "%") repl defaultOutfile = defaultOutfile := by
  have hdata : ("%" ++ k ++ "%").toList = '%' :: (k.toList ++ ['%']) := by
    cases k
    simp [String.toList, String.append]
  have hnm : ∀ c ∈ defaultOutfile.toList, (Char.toLower '%' == c.toLower) = false := by
    decide
  have hrepl := ciReplaceAux_no_match '%' (k.toList ++ ['%']) repl.toList
    defaultOutfile.toList.length defaultOutfile.toList hnm
  rw [ciReplace, hdata]
  show String.mk (ciReplaceAux '%' (k.toList ++ ['%']) repl.toList
    defaultOutfile.toList.length defaultOutfile.toList) = defaultOutfile
  rw [hrepl]
  rfl

/-- `Except`'s bind on a success just applies the continuation. -/
theorem except_bind_ok {ε γ δ : Type} (a : γ) (g : γ → Except ε δ) :
    ((Except.ok a : Except ε γ) >>= g) = g a := rfl

/-- Substituting `%keyword%` placeholders of the document's lines into the
default format mapping changes nothing (the default output name has no
`%`). -/
theorem foldl_subst_arg (ps : List (String × ArgInput)) :
    ps.foldl
      (fun ofs p => ofs.map
        (fun q => (q.1, ciReplace ("%" ++ p.1 ++ "%") p.2.value q.2)))
      [("input_file", defaultOutfile)] = [("input_file", defaultOutfile)] := by
  induction ps with
  | nil => rfl
  | cons p rest ih =>
    rw [List.foldl_cons, List.map_cons, List.map_nil,
      ciReplace_defaultOutfile p.1 p.2.value, ih]

/-- Substituting extra placeholders into the default format mapping changes
nothing either. -/
theorem foldl_subst_extra (ps : List (String × String)) :
    ps.foldl
      (fun ofs p => ofs.map
        (fun q => (q.1, ciReplace ("%" ++ p.1 ++ "%") p.2 q.2)))
      [("input_file", defaultOutfile)] = [("input_file", defaultOutfile)] := by
  induction ps with
  | nil => rfl
  | cons p rest ih =>
    rw [List.foldl_cons, List.map_cons, List.map_nil,
      ciReplace_defaultOutfile p.1 p.2, ih]

/-- `construct_file_names` on a freshly parsed document (default formats,
no extra placeholders, regex-literal keywords, no `input_file` line) only
sets the output name. -/
theorem construct_file_names_fresh {α : Type} (f : InputFile α)
    (h1 : f.filename_formats = [("input_file", defaultOutfile)])
    (h2 : f.filename_format_args = [])
    (h3 : dictLookup f.arg_dict "input_file" = none)
    (h4 : ∀ k ∈ f.arg_dict.map Prod.fst, regexLiteral k = true) :
    f.construct_file_names = .ok { f with outfile_name := defaultOutfile } := by
  obtain ⟨ad, ffa, ao, rr, outn, ff⟩ := f
  simp only at h1 h2 h3 h4
  subst h1
  subst h2
  rw [InputFile.construct_file_names]
  rw [if_pos (by rw [List.map_nil, List.append_nil]; exact List.all_eq_true.mpr h4)]
  simp only [foldl_subst_arg, List.foldl_nil, List.foldlM_cons, h3]
  rfl

/-- Rendering the line list over keys that are all present produces the
looked-up lines in key order. -/
theorem render_fold (d : List (String × ArgInput)) :
    ∀ (ks : List String) (acc : List String),
    (∀ k ∈ ks, ∃ a, dictLookup d k = some a) →
    ks.foldlM
      (fun acc k =>
        match dictLookup d k with
        | some a => Except.ok (acc ++ [a.output_line])
        | none => (Except.error k : Except String (List String)))
      acc =
      Except.ok (acc ++ ks.map
        (fun k => ((dictLookup d k).getD (ArgInput.parse "")).output_line)) := by
  intro ks
  induction ks with
  | nil =>
    intro acc _
    show Except.ok acc = _
    rw [List.map_nil, List.append_nil]
  | cons k rest ih =>
    intro acc hall
    obtain ⟨a, ha⟩ := hall k (by simp)
    rw [List.foldlM_cons, ha]
    show (Except.ok (acc ++ [a.output_line]) >>= _) = _
    rw [except_bind_ok]
    rw [ih _ (fun k0 hk0 => hall k0 (by simp [hk0]))]
    simp [ha]

/-- **C7, counterexample.** A document with two lines sharing the keyword
`EXE-FILE` does not re-serialise to the original lines: the second line
overwrites the keyword's dict entry while the order list keeps both
positions, so rendering repeats the last line twice. -/
theorem render_duplicate_keyword_counterexample :
    (InputFile.ofText (α := ℚ) "EXE-FILE: a\nEXE-FILE: b" none).map
        (fun f => f.renderLines) =
      .ok (.ok ["EXE-FILE: b", "EXE-FILE: b"]) ∧
    splitOnNl "EXE-FILE: a\nEXE-FILE: b" =
      ["EXE-FILE: a", "EXE-FILE: b"] ∧
    (["EXE-FILE: b", "EXE-FILE: b"] : List String) ≠
      ["EXE-FILE: a", "EXE-FILE: b"] := by
  refine ⟨rfl, rfl, by decide⟩

/-- **C7, amended.** A parsed document re-serialises to its original lines
provided the lines' keywords are pairwise distinct (with duplicate
keywords the dict keeps only the last line of each keyword, which is then
rendered at every position the keyword occupies in the order list), the
lines carry no whitespace between a leading semicolon run and the text
(`parse_input_file` normalises that away), every keyword is regex-literal
(contains none of the characters `[`, `\`, `^` — the source interpolates
each keyword into `re.compile`, so keyword `A[` raises `re.error` and
rendering crashes), some line's keyword is `EXE-FILE`, and no line's
keyword collides with the reserved `input_file` format key. -/
theorem render_roundtrip_distinct_keywords {α : Type} [Zero α]
    (content : String)
    (hnorm : ∀ l ∈ splitOnNl content, normalizeLine l = l)
    (hnodup : ((splitOnNl content).map lineKw).Nodup)
    (hre : ∀ l ∈ splitOnNl content, regexLiteral (lineKw l) = true)
    (hexe : "EXE-FILE" ∈ (splitOnNl content).map lineKw)
    (hinp : "input_file" ∉ (splitOnNl content).map lineKw) :
    ∃ f : InputFile α, InputFile.ofText content none = .ok f ∧
      f.renderLines = .ok (splitOnNl content) := by
  set ls := splitOnNl content with hls
  have hps := parseLines_eq ls hnodup
  set D := ls.map (fun l => (lineKw l, lineArg l)) with hD
  have hkeys : D.map Prod.fst = ls.map lineKw := by
    rw [hD, List.map_map]
    rfl
  obtain ⟨v, hv⟩ : ∃ v, dictLookup D "EXE-FILE" = some v :=
    dictLookup_isSome_of_mem D "EXE-FILE" (hkeys ▸ hexe)
  refine ⟨{ (InputFile.init (α := α) none) with
    arg_dict := D, arg_order := ls.map lineKw }, ?_, ?_⟩
  · rw [InputFile.ofText, ← hls, hps]
    rw [show (D, ls.map lineKw).1 = D from rfl] at *
    rw [hv]
  · set f : InputFile α := { (InputFile.init (α := α) none) with
      arg_dict := D, arg_order := ls.map lineKw } with hf
    have hcfn := construct_file_names_fresh f rfl rfl
      (dictLookup_eq_none D "input_file" (hkeys ▸ hinp))
      (by
        intro k hk
        obtain ⟨l, hl, rfl⟩ := List.mem_map.mp (hkeys ▸ hk : k ∈ ls.map lineKw)
        exact hre l hl)
    rw [InputFile.renderLines, hcfn, except_bind_ok]
    have hall : ∀ k ∈ ls.map lineKw, ∃ a, dictLookup D k = some a :=
      fun k hk => dictLookup_isSome_of_mem D k (hkeys ▸ hk)
    rw [show ({ f with outfile_name := defaultOutfile } : InputFile α).arg_order =
      ls.map lineKw from rfl]
    rw [show ({ f with outfile_name := defaultOutfile } : InputFile α).arg_dict =
      D from rfl]
    rw [render_fold D (ls.map lineKw) [] hall]
    rw [List.nil_append, List.map_map]
    have hpt : ∀ l ∈ ls,
        (((fun k => ((dictLookup D k).getD (ArgInput.parse "")).output_line) ∘
          lineKw) l) = id l := ?_
    · rw [List.map_congr_left hpt, List.map_id]
    intro l hl
    have hmem : (lineKw l, lineArg l) ∈ D := List.mem_map_of_mem _ hl
    have hlook : dictLookup D (lineKw l) = some (lineArg l) := by
      have := dictLookup_of_nodup D (hkeys ▸ hnodup) (lineKw l, lineArg l) hmem
      exact this
    show ((dictLookup D (lineKw l)).getD (ArgInput.parse "")).output_line = l
    rw [hlook]
    show (lineArg l).output_line = l
    rw [lineArg, ArgInput.output_line_parse, hnorm l hl]

/-- C7 (amended) applied at a concrete input: a two-line template with
distinct keywords re-serialises to its original lines. -/
theorem render_roundtrip_distinct_keywords_witness :
    ∃ f : InputFile ℚ,
      InputFile.ofText "EXE-FILE: sim\nPARAM: 2" none = .ok f ∧
      f.renderLines = .ok (splitOnNl "EXE-FILE: sim\nPARAM: 2") :=
  render_roundtrip_distinct_keywords (α := ℚ) "EXE-FILE: sim\nPARAM: 2"
    (by decide) (by decide) (by decide) (by decide) (by decide)

/-! ## Clone isolation (heap refinement)

The pure embedding cannot express aliasing, so object identity is made
explicit: a heap is a list of `ArgInput` cells and a document holds
references (indices) into it. `InputFile.clone` re-parses each line's
output text into a *fresh* cell (`ArgInput(args[k].output_line())`), so the
clone's references are newly allocated; `update_value` mutates exactly one
cell in place. -/

/-- A document as seen by the heap model: keyword-to-cell references plus
the keyword order. -/
structure HInputFile where
  arg_refs : List (String × ℕ)
  arg_order : List String
deriving DecidableEq, Repr

/-- The heap step of `InputFile.clone`: allocate one fresh cell per line,
holding the re-parse of the source cell's output text, and return the new
document (whose references point at the fresh cells) with the grown heap. -/
def hclone (h : List ArgInput) (f : HInputFile) : HInputFile × List ArgInput :=
  ({ arg_refs := f.arg_refs.enum.map (fun p => (p.2.1, h.length + p.1)),
     arg_order := f.arg_order },
   h ++ f.arg_refs.map
     (fun kr => ArgInput.parse ((h.getD kr.2 (ArgInput.parse "")).output_line)))

/-- In-place `update_value` of the cell at reference `r` (`none` when the
reference dangles or the update raises `IndexError`). -/
def hupdate (h : List ArgInput) (r : ℕ) (v : String) : Option (List ArgInput) :=
  match h[r]? with
  | none => none
  | some a => (a.update_value v true).map (fun a' => h.set r a')

/-- Every reference of a clone points past the original heap. -/
theorem hclone_refs_fresh (h : List ArgInput) (f : HInputFile) :
    ∀ kr ∈ (hclone h f).1.arg_refs, h.length ≤ kr.2 := by
  intro kr hkr
  obtain ⟨p, _, rfl⟩ := List.mem_map.mp hkr
  simp

/-- **C8.** `clone` shares no mutable state with its source: updating the
value of a cloned document's line (through any of the clone's references)
leaves every cell the source document references exactly as it was in the
original heap, and conversely updating a source line leaves every cell the
clone references unchanged. -/
theorem clone_isolation (h : List ArgInput) (f : HInputFile)
    (hwf : ∀ kr ∈ f.arg_refs, kr.2 < h.length) (k : String) (r : ℕ)
    (v : String) (h₂ : List ArgInput) :
    ((k, r) ∈ (hclone h f).1.arg_refs →
      hupdate (hclone h f).2 r v = some h₂ →
      ∀ kr ∈ f.arg_refs, h₂[kr.2]? = h[kr.2]?) ∧
    ((k, r) ∈ f.arg_refs →
      hupdate (hclone h f).2 r v = some h₂ →
      ∀ kr ∈ (hclone h f).1.arg_refs,
        h₂[kr.2]? = (hclone h f).2[kr.2]?) := by
  constructor
  · intro hr hup kr hkr
    have hrfresh : h.length ≤ r := hclone_refs_fresh h f (k, r) hr
    have hkrlt : kr.2 < h.length := hwf kr hkr
    rw [hupdate] at hup
    match hcell : (hclone h f).2[r]? with
    | none => rw [hcell] at hup; simp at hup
    | some a =>
      rw [hcell] at hup
      replace hup : Option.map (fun a' => (hclone h f).2.set r a')
          (a.update_value v true) = some h₂ := hup
      rw [Option.map_eq_some'] at hup
      obtain ⟨a', hupd, hset⟩ := hup
      subst hset
      rw [List.getElem?_set_ne (by omega)]
      show (h ++ _)[kr.2]? = h[kr.2]?
      rw [List.getElem?_append_left hkrlt]
  · intro hr hup kr hkr
    have hrlt : r < h.length := hwf (k, r) hr
    have hkrfresh : h.length ≤ kr.2 := hclone_refs_fresh h f kr hkr
    rw [hupdate] at hup
    match hcell : (hclone h f).2[r]? with
    | none => rw [hcell] at hup; simp at hup
    | some a =>
      rw [hcell] at hup
      replace hup : Option.map (fun a' => (hclone h f).2.set r a')
          (a.update_value v true) = some h₂ := hup
      rw [Option.map_eq_some'] at hup
      obtain ⟨a', hupd, hset⟩ := hup
      subst hset
      rw [List.getElem?_set_ne (by omega)]

/-- Concrete heap for the C8 witness: the one-line document
`EXE-FILE: sim`. -/
def c8_heap : List ArgInput := [ArgInput.parse "EXE-FILE: sim"]

/-- The C8 witness document referencing cell 0. -/
def c8_doc : HInputFile := ⟨[("EXE-FILE", 0)], ["EXE-FILE"]⟩

/-- The heap after updating the cloned line's value. -/
def c8_heap2 : List ArgInput :=
  (hupdate (hclone c8_heap c8_doc).2 1 "newsim").getD []

/-- C8 applied at a concrete input: cloning the one-line document allocates
cell 1; updating either copy leaves the other's cell untouched. -/
theorem clone_isolation_witness :
    ((("EXE-FILE", 1) ∈ (hclone c8_heap c8_doc).1.arg_refs →
      hupdate (hclone c8_heap c8_doc).2 1 "newsim" = some c8_heap2 →
      ∀ kr ∈ c8_doc.arg_refs, c8_heap2[kr.2]? = c8_heap[kr.2]?) ∧
    (("EXE-FILE", 1) ∈ c8_doc.arg_refs →
      hupdate (hclone c8_heap c8_doc).2 1 "newsim" = some c8_heap2 →
      ∀ kr ∈ (hclone c8_heap c8_doc).1.arg_refs,
        c8_heap2[kr.2]? = (hclone c8_heap c8_doc).2[kr.2]?)) :=
  clone_isolation c8_heap c8_doc (by decide) "EXE-FILE" 1 "newsim" c8_heap2

end BulkRun
